import Mathlib

/-!
Verification of the repomap repository (a tkinter file-tree / markdown digest tool).

The Python sources (`file_handler.py`, `token_counter.py`, `markdown_generator.py`,
`main.py`) are shallowly embedded below.  Strings are modelled as `List Char`
(Python `str` by code points), byte strings as `List Nat`, Python `set` state as
Lean lists with no-duplicate insertion, and the file system / OS surface
(`os.listdir`, `os.path.realpath`, ...) as explicit function parameters, so every
definition is executable.  Each embedded definition is a direct transcription of
the function it is named after.
-/

/-! ## Basic string machinery (Python `str` operations on `List Char`) -/

/-- Python `str.replace(old, new)` specialised to single-character arguments
(the only use in the sources is `path.replace('\\', '/')`). -/
def replaceChar (old new : Char) (s : List Char) : List Char :=
  s.map fun c => if c = old then new else c

/-- Python `str.lower` (per-character lowercasing). -/
def lowerStr (s : List Char) : List Char :=
  s.map Char.toLower

/-- Python `needle in haystack` on strings: substring test. -/
def pyContains (haystack needle : List Char) : Bool :=
  decide (needle <:+: haystack)

/-- Python `s.endswith(suffix)`. -/
def pyEndswith (s suffix : List Char) : Bool :=
  decide (suffix <:+ s)

/-- Lexicographic `≤` on strings by code point, as used by Python comparisons. -/
def strLeB : List Char → List Char → Bool
  | [], _ => true
  | _ :: _, [] => false
  | a :: as, b :: bs => if a = b then strLeB as bs else decide (a < b)

/-- Stable insertion of one element into a sorted list (kept before later equals,
after earlier equals), auxiliary for `pySorted`. -/
def insertLe (le : α → α → Bool) (x : α) : List α → List α
  | [] => [x]
  | y :: ys => if le x y then x :: y :: ys else y :: insertLe le x ys

/-- Python `sorted(l, key=...)`, modelled as a stable insertion sort with a boolean
`≤` comparison; Python's `sorted` is specified exactly by being a stable sort. -/
def pySorted (le : α → α → Bool) : List α → List α
  | [] => []
  | x :: xs => insertLe le x (pySorted le xs)

theorem insertLe_perm (le : α → α → Bool) (x : α) (l : List α) :
    (insertLe le x l).Perm (x :: l) := by
  induction l with
  | nil => simp [insertLe]
  | cons y ys ih =>
    simp only [insertLe]
    split
    · exact List.Perm.refl _
    · exact ((ih.cons y).trans (List.Perm.swap x y ys))

theorem pySorted_perm (le : α → α → Bool) (l : List α) :
    (pySorted le l).Perm l := by
  induction l with
  | nil => simp [pySorted]
  | cons x xs ih =>
    exact (insertLe_perm le x (pySorted le xs)).trans (ih.cons x)

theorem mem_pySorted (le : α → α → Bool) (x : α) (l : List α) :
    x ∈ pySorted le l ↔ x ∈ l :=
  (pySorted_perm le l).mem_iff

/-! ## `FileHandler.should_exclude` (file_handler.py, lines 62–73)

```python
path_parts = path.replace('\\', '/').split('/')
return any(part in self.exclude_patterns for part in path_parts)
```
-/

/-- Embeds `FileHandler.should_exclude`: split the path on `/` after rewriting `\` to `/`;
excluded iff some component is literally in the pattern set. -/
def should_exclude (exclude_patterns : List (List Char)) (path : List Char) : Bool :=
  ((replaceChar '\\' '/' path).splitOnP (· == '/')).any
    fun part => decide (part ∈ exclude_patterns)

/-- Path components obtained by splitting on both separators at once — the
spec's description of the decomposition. -/
def pathComponents (path : List Char) : List (List Char) :=
  path.splitOnP fun c => c == '/' || c == '\\'

theorem splitOnP_replaceChar (p : List Char) :
    (replaceChar '\\' '/' p).splitOnP (· == '/')
      = p.splitOnP (fun c => c == '/' || c == '\\') := by
  induction p with
  | nil => rfl
  | cons c cs ih =>
    simp only [replaceChar, List.map_cons] at *
    by_cases h : c = '\\'
    · subst h
      simp [List.splitOnP_cons, ih]
    · by_cases h2 : c = '/'
      · subst h2
        simp [List.splitOnP_cons, ih]
      · simp [List.splitOnP_cons, h, h2, ih]

/-- C2: `should_exclude` returns true iff some single path component (splitting on
both `/` and `\`) exactly equals a configured pattern; in particular a component
merely containing a pattern as a proper substring does not match. -/
theorem should_exclude_iff_component_mem (exclude_patterns : List (List Char))
    (path : List Char) :
    should_exclude exclude_patterns path = true ↔
      ∃ part ∈ pathComponents path, part ∈ exclude_patterns := by
  unfold should_exclude pathComponents
  rw [splitOnP_replaceChar]
  simp

/-! ## `TokenCounter.is_binary_file` content sniffing (token_counter.py, lines 36–43)

```python
chunk = f.read(1024)
textchars = bytearray({7,8,9,10,12,13,27} | set(range(0x20, 0x100)) - {0x7f})
return bool(chunk.translate(None, textchars))
```
-/

/-- The byte allowlist `{7,8,9,10,12,13,27} | set(range(0x20, 0x100)) - {0x7f}`.
Note `range(0x20, 0x100)` runs up to and including `0xFF`. -/
def textchars : List Nat :=
  [7, 8, 9, 10, 12, 13, 27] ++ (List.range' 0x20 0xE0).filter (fun b => !(b == 0x7f))

/-- Python `bytes.translate(None, delete)`: delete every byte listed in `delete`. -/
def translateDelete (chunk delete : List Nat) : List Nat :=
  chunk.filter fun b => !(decide (b ∈ delete))

/-- Content part of `TokenCounter.is_binary_file`: binary iff the first 1024 bytes
contain a byte surviving deletion of the allowlist. -/
def is_binary_content (content : List Nat) : Bool :=
  !(translateDelete (content.take 1024) textchars).isEmpty

theorem mem_textchars (b : Nat) :
    b ∈ textchars ↔ b ∈ ([7, 8, 9, 10, 12, 13, 27] : List Nat) ∨
      (0x20 ≤ b ∧ b ≤ 0xFF ∧ b ≠ 0x7f) := by
  simp only [textchars, List.mem_append, List.mem_filter, List.mem_range']
  constructor
  · rintro (h | ⟨⟨i, hi, rfl⟩, hne⟩)
    · exact Or.inl h
    · right
      have hne' : 32 + 1 * i ≠ 127 := by simpa using hne
      omega
  · rintro (h | ⟨h1, h2, h3⟩)
    · exact Or.inl h
    · right
      refine ⟨⟨b - 0x20, by omega, by omega⟩, ?_⟩
      simpa using h3

/-- C7 counterexample: the byte `0xFF` lies outside the allowlist claimed by the
spec (`0x20`–`0xFE`), so by the claim a chunk consisting of `0xFF` should be
classified binary — but the code classifies it as text. -/
theorem is_binary_content_ff_counterexample :
    is_binary_content [0xFF] = false ∧
      (0xFF ∉ ([7, 8, 9, 10, 12, 13, 27] : List Nat) ∧
        ¬ (0x20 ≤ 0xFF ∧ 0xFF ≤ 0xFE ∧ (0xFF : Nat) ≠ 0x7f)) := by
  refine ⟨by decide, by decide, by decide⟩

/-- C7 (amended): content sniffing reports binary iff the first 1024 bytes contain
a byte outside `{7,8,9,10,12,13,27} ∪ [0x20, 0xFF] \ {0x7F}` — the upper end of
the printable range is `0xFF`, not `0xFE`, so a text file whose first 1KB contains
`0xFF` is NOT classified binary by content. -/
theorem is_binary_content_iff (content : List Nat) :
    is_binary_content content = true ↔
      ∃ b ∈ content.take 1024,
        ¬ (b ∈ ([7, 8, 9, 10, 12, 13, 27] : List Nat) ∨
            (0x20 ≤ b ∧ b ≤ 0xFF ∧ b ≠ 0x7f)) := by
  have h1 : is_binary_content content = true ↔
      ¬ ∀ b ∈ content.take 1024, b ∈ textchars := by
    unfold is_binary_content translateDelete
    simp [List.isEmpty_eq_false, List.filter_eq_nil_iff]
  rw [h1]
  constructor
  · intro h
    rcases not_forall.mp h with ⟨b, hb⟩
    rcases Classical.not_imp.mp hb with ⟨hbmem, hnb⟩
    exact ⟨b, hbmem, by rw [← mem_textchars]; exact hnb⟩
  · rintro ⟨b, hb, hnb⟩
    intro hall
    exact hnb ((mem_textchars b).mp (hall b hb))

/-! ## `FileHandler.is_safe_path` (file_handler.py, lines 39–56)

```python
try:
    real_path = os.path.realpath(path)
    if real_path in self.visited_paths:
        return False
    self.visited_paths.add(real_path)
    return True
except Exception:
    return False
```
`os.path.realpath` is modelled as a function returning `none` when resolution
raises.  The visited set is threaded explicitly. -/

/-- Embeds `FileHandler.is_safe_path`: returns the boolean result and the updated
visited set. -/
def is_safe_path (realpath : List Char → Option (List Char))
    (visited : List (List Char)) (path : List Char) : Bool × List (List Char) :=
  match realpath path with
  | none => (false, visited)
  | some rp => if rp ∈ visited then (false, visited) else (true, rp :: visited)

/-- C9: `is_safe_path` resolves the path; an already-visited canonical form yields
`false` with the set unchanged; a fresh one is inserted and yields `true`; a
resolution failure yields `false` with the set unchanged (never raises). -/
theorem is_safe_path_spec (realpath : List Char → Option (List Char))
    (visited : List (List Char)) (path : List Char) :
    (∀ rp, realpath path = some rp →
        (rp ∈ visited → is_safe_path realpath visited path = (false, visited)) ∧
        (rp ∉ visited → is_safe_path realpath visited path = (true, rp :: visited))) ∧
      (realpath path = none → is_safe_path realpath visited path = (false, visited)) := by
  constructor
  · intro rp hrp
    constructor
    · intro hin
      simp [is_safe_path, hrp, hin]
    · intro hout
      simp [is_safe_path, hrp, hout]
  · intro hnone
    simp [is_safe_path, hnone]

/-- C9 witness: concrete instantiation of `is_safe_path_spec`. -/
theorem is_safe_path_spec_witness :
    is_safe_path (fun p => some p) [['a']] ['b'] = (true, [['b'], ['a']]) := by
  have h := (is_safe_path_spec (fun p => some p) [['a']] ['b']).1 ['b'] rfl
  exact h.2 (by decide)

/-! ## Extension filters (file_handler.py line 114, main.py lines 733 / 405)

`get_files` (flat enumeration):
```python
if extensions and not any(filename.endswith(ext) for ext in extensions):
    continue
```
`populate_tree` (per-folder listing):
```python
if not extensions or any(item.lower().endswith(ext.lower()) for ext in extensions):
```
-/

/-- The per-file keep-condition of `FileHandler.get_files`: kept by the extension
filter iff the list is empty (falsy) or some extension is a (case-sensitive!)
suffix of the filename. -/
def getFilesExtPass (extensions : List (List Char)) (filename : List Char) : Bool :=
  extensions.isEmpty || extensions.any fun ext => pyEndswith filename ext

/-- The per-file condition of `populate_tree` (and of the token-aggregation
worker): empty list matches all, otherwise case-insensitive suffix match. -/
def populateExtPass (extensions : List (List Char)) (item : List Char) : Bool :=
  extensions.isEmpty || extensions.any fun ext => pyEndswith (lowerStr item) (lowerStr ext)

/-- C6 counterexample: with filter `['.py']`, the file `A.PY` is rejected by
`get_files`' case-sensitive test although the claim says the match is
case-insensitive for the flat enumeration too (it is case-insensitive only in
the per-folder listing). -/
theorem getFilesExtPass_case_counterexample :
    getFilesExtPass [['.', 'p', 'y']] ['A', '.', 'P', 'Y'] = false ∧
      populateExtPass [['.', 'p', 'y']] ['A', '.', 'P', 'Y'] = true := by
  constructor
  · decide
  · decide

/-- C6 (amended): an empty filter list matches every file; a non-empty list keeps
a file iff some listed extension is a suffix of the name — compared
case-sensitively in the flat enumeration (`get_files`) and case-insensitively in
the per-folder listing (`populate_tree`). -/
theorem extPass_characterisation (extensions : List (List Char)) (name : List Char) :
    (getFilesExtPass extensions name = true ↔
        extensions = [] ∨ ∃ ext ∈ extensions, ext <:+ name) ∧
      (populateExtPass extensions name = true ↔
        extensions = [] ∨ ∃ ext ∈ extensions, lowerStr ext <:+ lowerStr name) := by
  constructor
  · unfold getFilesExtPass pyEndswith
    simp [List.isEmpty_iff]
  · unfold populateExtPass pyEndswith
    simp [List.isEmpty_iff]

/-! ## Selection state machine (main.py lines 904–1000, 792–902)

The visual tree is modelled as an inductive tree of nodes carrying the tkinter
item id (a `Nat` here; in the source the id is the absolute path, which tkinter
keeps unique) and whether the node carries the `excluded` tag.  `checked_items`
(a Python set) is a duplicate-free list updated with `List.insert` / `List.erase`.

`check_item_and_children` (lines 946–985): returns unchanged if the item is
excluded, otherwise adds the item and recurses into every child (each child
re-checks its own excluded tag).  `uncheck_item_and_children` (lines 987–1000)
is the discard analogue.  `handle_click` toggles via these two after an
excluded-guard; `expand_all_folders` clears and then checks every root;
`collapse_all_folders` and `refresh_files` clear the set.  All reachable
selection states are therefore generated by check / uncheck / clear. -/

inductive UITree where
  | node (id : Nat) (excluded : Bool) (children : List UITree)

def UITree.ident : UITree → Nat
  | .node i _ _ => i

def UITree.excl : UITree → Bool
  | .node _ e _ => e

def UITree.kids : UITree → List UITree
  | .node _ _ cs => cs

mutual

def check_item_and_children : UITree → List Nat → List Nat
  | .node i e cs, checked =>
    if e then checked else checkChildrenList cs (checked.insert i)

def checkChildrenList : List UITree → List Nat → List Nat
  | [], checked => checked
  | c :: cs, checked => checkChildrenList cs (check_item_and_children c checked)

end

mutual

def uncheck_item_and_children : UITree → List Nat → List Nat
  | .node i e cs, checked =>
    if e then checked else uncheckChildrenList cs (checked.erase i)

def uncheckChildrenList : List UITree → List Nat → List Nat
  | [], checked => checked
  | c :: cs, checked => uncheckChildrenList cs (uncheck_item_and_children c checked)

end

/-- One user-level selection operation. -/
inductive SelOp where
  | checkOp (t : UITree)
  | uncheckOp (t : UITree)
  | clearOp

def opTarget : SelOp → Option UITree
  | .checkOp t => some t
  | .uncheckOp t => some t
  | .clearOp => none

def applySelOp (checked : List Nat) : SelOp → List Nat
  | .checkOp t => check_item_and_children t checked
  | .uncheckOp t => uncheck_item_and_children t checked
  | .clearOp => []

def runSelOps (ops : List SelOp) (checked : List Nat) : List Nat :=
  ops.foldl applySelOp checked

mutual

def allIds : UITree → List Nat
  | .node i _ cs => i :: allIdsList cs

def allIdsList : List UITree → List Nat
  | [] => []
  | c :: cs => allIds c ++ allIdsList cs

end

mutual

def exclIds : UITree → List Nat
  | .node i e cs => (if e then [i] else []) ++ exclIdsList cs

def exclIdsList : List UITree → List Nat
  | [] => []
  | c :: cs => exclIds c ++ exclIdsList cs

end

mutual

def nonExclIds : UITree → List Nat
  | .node i e cs => (if e then [] else [i]) ++ nonExclIdsList cs

def nonExclIdsList : List UITree → List Nat
  | [] => []
  | c :: cs => nonExclIds c ++ nonExclIdsList cs

end

/-- Relation `Subtree s t`: the node `s` occurs in the tree `t`. -/
inductive Subtree : UITree → UITree → Prop
  | refl (t : UITree) : Subtree t t
  | step {s c : UITree} {i : Nat} {e : Bool} {cs : List UITree} :
      c ∈ cs → Subtree s c → Subtree s (.node i e cs)

mutual

theorem mem_check_item (t : UITree) (s : List Nat) (i : Nat)
    (h : i ∈ check_item_and_children t s) : i ∈ s ∨ i ∈ nonExclIds t := by
  cases t with
  | node j e cs =>
    by_cases he : e
    · subst he
      simp only [check_item_and_children, if_pos] at h
      exact Or.inl h
    · have he' : e = false := by simpa using he
      subst he'
      simp only [check_item_and_children, if_neg Bool.false_ne_true] at h
      rcases mem_checkChildrenList cs (s.insert j) i h with h2 | h2
      · rcases List.mem_insert_iff.mp h2 with rfl | h3
        · exact Or.inr (by simp [nonExclIds])
        · exact Or.inl h3
      · exact Or.inr (by simp [nonExclIds, h2])

theorem mem_checkChildrenList (cs : List UITree) (s : List Nat) (i : Nat)
    (h : i ∈ checkChildrenList cs s) : i ∈ s ∨ i ∈ nonExclIdsList cs := by
  cases cs with
  | nil =>
    simp only [checkChildrenList] at h
    exact Or.inl h
  | cons c cs' =>
    simp only [checkChildrenList] at h
    rcases mem_checkChildrenList cs' (check_item_and_children c s) i h with h2 | h2
    · rcases mem_check_item c s i h2 with h3 | h3
      · exact Or.inl h3
      · exact Or.inr (by simp [nonExclIdsList, h3])
    · exact Or.inr (by simp [nonExclIdsList, h2])

end

mutual

theorem mem_uncheck_item (t : UITree) (s : List Nat) (i : Nat)
    (h : i ∈ uncheck_item_and_children t s) : i ∈ s := by
  cases t with
  | node j e cs =>
    by_cases he : e
    · subst he
      simpa [uncheck_item_and_children] using h
    · have he' : e = false := by simpa using he
      subst he'
      simp only [uncheck_item_and_children, if_neg Bool.false_ne_true] at h
      exact List.mem_of_mem_erase (mem_uncheckChildrenList cs (s.erase j) i h)

theorem mem_uncheckChildrenList (cs : List UITree) (s : List Nat) (i : Nat)
    (h : i ∈ uncheckChildrenList cs s) : i ∈ s := by
  cases cs with
  | nil => simpa [uncheckChildrenList] using h
  | cons c cs' =>
    simp only [uncheckChildrenList] at h
    exact mem_uncheck_item c s i
      (mem_uncheckChildrenList cs' (uncheck_item_and_children c s) i h)

end

mutual

theorem count_excl_nonExcl (t : UITree) (i : Nat) :
    (exclIds t).count i + (nonExclIds t).count i = (allIds t).count i := by
  cases t with
  | node j e cs =>
    have h := count_excl_nonExcl_list cs i
    by_cases hji : j = i
    · subst hji
      cases e <;> simp [exclIds, nonExclIds, allIds, List.count_append, List.count_cons] <;>
        omega
    · cases e <;>
        simp [exclIds, nonExclIds, allIds, List.count_append, List.count_cons, hji] <;> omega

theorem count_excl_nonExcl_list (cs : List UITree) (i : Nat) :
    (exclIdsList cs).count i + (nonExclIdsList cs).count i = (allIdsList cs).count i := by
  cases cs with
  | nil => simp [exclIdsList, nonExclIdsList, allIdsList]
  | cons c cs' =>
    simp only [exclIdsList, nonExclIdsList, allIdsList, List.count_append]
    have h1 := count_excl_nonExcl c i
    have h2 := count_excl_nonExcl_list cs' i
    omega

end

theorem nonExclIds_subset_list {c : UITree} {cs : List UITree} (hc : c ∈ cs) :
    nonExclIds c ⊆ nonExclIdsList cs := by
  induction cs with
  | nil => cases hc
  | cons d ds ih =>
    rcases List.mem_cons.mp hc with rfl | hmem
    · simp only [nonExclIdsList]
      exact List.subset_append_left _ _
    · simp only [nonExclIdsList]
      exact (ih hmem).trans (List.subset_append_right _ _)

theorem nonExclIds_subtree {t T : UITree} (h : Subtree t T) :
    nonExclIds t ⊆ nonExclIds T := by
  induction h with
  | refl => exact fun i hi => hi
  | step hc _ ih =>
    refine ih.trans ?_
    refine (nonExclIds_subset_list hc).trans ?_
    simp only [nonExclIds]
    exact List.subset_append_right _ _

theorem not_excl_of_nonExcl {T : UITree} (hnd : (allIds T).Nodup) {i : Nat}
    (hi : i ∈ nonExclIds T) : i ∉ exclIds T := by
  intro hex
  have h1 : 0 < (exclIds T).count i := List.count_pos_iff.mpr hex
  have h2 : 0 < (nonExclIds T).count i := List.count_pos_iff.mpr hi
  have h3 := count_excl_nonExcl T i
  have h4 := List.nodup_iff_count_le_one.mp hnd i
  omega

/-- The invariant `no excluded id is checked` is preserved by every selection
operation whose target is a subtree of the materialised tree. -/
theorem applySelOp_preserves {T : UITree} (hnd : (allIds T).Nodup)
    {checked : List Nat} (hinv : ∀ i ∈ checked, i ∉ exclIds T) (op : SelOp)
    (hop : ∀ t, opTarget op = some t → Subtree t T) :
    ∀ i ∈ applySelOp checked op, i ∉ exclIds T := by
  intro i hi
  cases op with
  | checkOp t =>
    rcases mem_check_item t checked i hi with h | h
    · exact hinv i h
    · exact not_excl_of_nonExcl hnd (nonExclIds_subtree (hop t rfl) h)
  | uncheckOp t => exact hinv i (mem_uncheck_item t checked i hi)
  | clearOp => cases hi

/-- C3: starting from the empty selection, after any sequence of check / uncheck /
clear operations whose targets are nodes of the tree, no id of an excluded node
is ever a member of `checked_items`; moreover checking an excluded node is a
no-op. -/
theorem excluded_never_checked (T : UITree) (ops : List SelOp)
    (hnd : (allIds T).Nodup)
    (hsub : ∀ op ∈ ops, ∀ t, opTarget op = some t → Subtree t T) :
    (∀ i ∈ runSelOps ops [], i ∉ exclIds T) ∧
      (∀ t checked, t.excl = true → check_item_and_children t checked = checked) := by
  constructor
  · have main : ∀ (ops' : List SelOp) (checked : List Nat),
        (∀ op ∈ ops', ∀ t, opTarget op = some t → Subtree t T) →
        (∀ i ∈ checked, i ∉ exclIds T) →
        ∀ i ∈ runSelOps ops' checked, i ∉ exclIds T := by
      intro ops'
      induction ops' with
      | nil => intro checked _ hinv; simpa [runSelOps] using hinv
      | cons op rest ih =>
        intro checked hops hinv
        simp only [runSelOps, List.foldl_cons] at *
        exact ih (applySelOp checked op)
          (fun o ho => hops o (List.mem_cons_of_mem _ ho))
          (applySelOp_preserves hnd hinv op (hops op (List.mem_cons_self _ _)))
    exact main ops [] hsub (by intro i hi; cases hi)
  · intro t checked ht
    cases t with
    | node j e cs =>
      simp only [UITree.excl] at ht
      subst ht
      simp [check_item_and_children]

/-- C3 witness: a concrete tree (root 0 with excluded child 1 and plain child 2)
and a concrete operation sequence, instantiating `excluded_never_checked`. -/
theorem excluded_never_checked_witness :
    (∀ i ∈ runSelOps [SelOp.checkOp (.node 0 false [.node 1 true [], .node 2 false []]),
        SelOp.uncheckOp (.node 2 false [])] [],
      i ∉ exclIds (.node 0 false [.node 1 true [], .node 2 false []])) ∧
      (∀ t checked, t.excl = true → check_item_and_children t checked = checked) := by
  refine excluded_never_checked _ _ (by decide) ?_
  intro op hop t ht
  rcases List.mem_cons.mp hop with rfl | hop2
  · cases ht
    exact Subtree.refl _
  · rcases List.mem_cons.mp hop2 with rfl | hop3
    · cases ht
      exact Subtree.step (by simp) (Subtree.refl _)
    · cases hop3

/-! ## POSIX path primitives

`os.path.join`, `dirname`, `basename`, `relpath`, `commonpath` are Python
standard library functions; they are modelled here by their documented POSIX
semantics over `List Char` paths with separator `/`. -/

/-- Python `s.rfind(c)`: index of the last occurrence, `none` when absent. -/
def rfindChar (c : Char) (s : List Char) : Option Nat :=
  match s.reverse.findIdx? (· == c) with
  | none => none
  | some j => some (s.length - 1 - j)

/-- Models `os.path.join(a, b)` for a single right operand. -/
def pyJoin (a b : List Char) : List Char :=
  if b.head? = some '/' then b
  else if a = [] ∨ a.getLast? = some '/' then a ++ b
  else a ++ '/' :: b

def dropTrailingSlashes (s : List Char) : List Char :=
  (s.reverse.dropWhile (· == '/')).reverse

/-- Models `os.path.dirname(p)`: everything up to and including the final `/` (the
`head = p[:i]` of the POSIX implementation, computed here by dropping the
final slash-free run), with trailing slashes then stripped unless the head is
all slashes. -/
def pyDirname (p : List Char) : List Char :=
  let head := (p.reverse.dropWhile fun c => !(c == '/')).reverse
  if head ≠ [] ∧ ¬ head.all (· == '/') then dropTrailingSlashes head else head

/-- Models `os.path.basename(p)`: everything after the final `/`. -/
def pyBasename (p : List Char) : List Char :=
  match rfindChar '/' p with
  | none => p
  | some k => p.drop (k + 1)

/-- Split a path on `/`, dropping empty components and `.` (as `relpath` and
`commonpath` do). -/
def splitComponents (p : List Char) : List (List Char) :=
  (p.splitOnP (· == '/')).filter fun comp => !comp.isEmpty && !(comp == ['.'])

/-- Longest common prefix of two component lists. -/
def commonPrefixList : List (List Char) → List (List Char) → List (List Char)
  | a :: as, b :: bs => if a = b then a :: commonPrefixList as bs else []
  | _, _ => []

def joinSlash (cs : List (List Char)) : List Char :=
  List.intercalate ['/'] cs

/-- Models `os.path.relpath(p, start)` (POSIX semantics). -/
def pyRelpath (p start : List Char) : List Char :=
  let ps := splitComponents p
  let ss := splitComponents start
  let i := (commonPrefixList ss ps).length
  let parts := List.replicate (ss.length - i) ['.', '.'] ++ ps.drop i
  if parts = [] then ['.'] else joinSlash parts

def isAbsPath (p : List Char) : Bool :=
  p.head? == some '/'

/-- Models `os.path.commonpath(paths)` (POSIX semantics); `error` models the
`ValueError` raised on an empty sequence or a mix of absolute and relative
paths. -/
def pyCommonpath (paths : List (List Char)) : Except Unit (List Char) :=
  match paths with
  | [] => .error ()
  | p :: rest =>
    if rest.all (fun q => isAbsPath q == isAbsPath p) then
      let comps := rest.foldl (fun acc q => commonPrefixList acc (splitComponents q))
        (splitComponents p)
      .ok ((if isAbsPath p then ['/'] else []) ++ joinSlash comps)
    else .error ()

/-! ## Token aggregation (main.py lines 345–350, 370–431, 433–497)

The background worker `token_calculation_thread` walks `os.walk(directory_path)`
output (modelled as the list of `(root, filenames)` pairs), checks the shared
`cancel_operation` flag once per walk entry and once per file, and communicates
through the queue with `progress` / `error` / `done` / `cancelled` messages.
The flag is modelled as a function of the check counter (check number `i` reads
`cancel i`), so an arbitrary moment of cancellation is expressible.
`check_token_queue` adds `directory_path` to `calculated_directories` only when
it processes a `done` message; `calculate_directory_tokens` re-walks exactly
when the directory is not in that set. -/

inductive TMsg where
  | progressMsg (path : List Char) (tokens : Nat)
  | errorMsg (path msg : List Char)
  | doneMsg (dir : List Char) (total : Nat)
  | cancelledMsg
deriving DecidableEq

/-- Worker environment: the UI settings read inside the thread plus the
tokeniser/file-system capabilities. -/
structure TokenEnv where
  dirEntry : List Char
  excludeEnabled : Bool
  exclude_patterns : List (List Char)
  extensions : List (List Char)
  isBinaryFile : List Char → Bool
  readTokens : List Char → Except (List Char) Nat

/-- Embeds `TokenCounter.count_tokens_in_file`: 0 for binary files, otherwise read and
tokenise (which may fail); parametrised by the binary classifier and the
read-and-count capability. -/
def count_tokens_in_file (isBinaryFile : List Char → Bool)
    (readTokens : List Char → Except (List Char) Nat) (p : List Char) :
    Except (List Char) Nat :=
  if isBinaryFile p then .ok 0 else readTokens p

/-- Per-file body of the worker loop (main.py lines 392–416): skip binary,
excluded and filtered-out files; otherwise emit a progress or error message and
update the running total. -/
def workerProcessFile (env : TokenEnv) (item_path : List Char) (total : Nat) :
    Option TMsg × Nat :=
  if env.isBinaryFile item_path then (none, total)
  else
    let rel := pyRelpath item_path env.dirEntry
    if env.excludeEnabled && should_exclude env.exclude_patterns rel then (none, total)
    else if !(populateExtPass env.extensions item_path) then (none, total)
    else
      match count_tokens_in_file env.isBinaryFile env.readTokens item_path with
      | .ok tok => (some (.progressMsg item_path tok), total + tok)
      | .error e => (some (.errorMsg item_path e), total)

/-- Inner `for filename in filenames` loop with its per-file cancellation check.
Returns the final message list when cancelled (`inl`), otherwise the advanced
check counter, running total, and message list. -/
def workerFileLoop (env : TokenEnv) (cancel : Nat → Bool) (root : List Char) :
    Nat → Nat → List (List Char) → List TMsg → (List TMsg ⊕ (Nat × Nat × List TMsg))
  | t, total, [], msgs => .inr (t, total, msgs)
  | t, total, f :: fs, msgs =>
    if cancel t then .inl (msgs ++ [.cancelledMsg])
    else
      let res := workerProcessFile env (pyJoin root f) total
      workerFileLoop env cancel root (t + 1) res.2 fs (msgs ++ res.1.toList)

/-- Outer `for root, _, filenames in os.walk(...)` loop with its per-entry
cancellation check; appends the `done` message after a complete walk. -/
def workerRootLoop (env : TokenEnv) (cancel : Nat → Bool) (dirPath : List Char) :
    Nat → Nat → List (List Char × List (List Char)) → List TMsg → List TMsg
  | _, total, [], msgs => msgs ++ [.doneMsg dirPath total]
  | t, total, (root, files) :: rest, msgs =>
    if cancel t then msgs ++ [.cancelledMsg]
    else
      match workerFileLoop env cancel root (t + 1) total files msgs with
      | .inl final => final
      | .inr (t', total', msgs') => workerRootLoop env cancel dirPath t' total' rest msgs'

/-- The whole worker thread body. -/
def token_calculation_thread (env : TokenEnv) (cancel : Nat → Bool)
    (dirPath : List Char) (walk : List (List Char × List (List Char))) : List TMsg :=
  workerRootLoop env cancel dirPath 0 0 walk []

/-- Number of cancellation checks performed by a complete walk. -/
def walkChecks (walk : List (List Char × List (List Char))) : Nat :=
  (walk.map fun rf => 1 + rf.2.length).sum

/-- The `calculated_directories` update performed by `check_token_queue` while
draining the queue: only a `done` message inserts its directory. -/
def drainCalculated (calculated : List (List Char)) (msgs : List TMsg) :
    List (List Char) :=
  msgs.foldl
    (fun c m => match m with
      | .doneMsg d _ => c.insert d
      | _ => c) calculated

/-- The guard of `calculate_directory_tokens`: the walk runs iff the directory
is not memoized. -/
def calculate_directory_tokens_runs (calculated : List (List Char))
    (directory_path : List Char) : Bool :=
  !(decide (directory_path ∈ calculated))

theorem workerProcessFile_no_done (env : TokenEnv) (p : List Char) (total : Nat)
    (d : List Char) (n : Nat) :
    (workerProcessFile env p total).1 ≠ some (.doneMsg d n) := by
  unfold workerProcessFile
  by_cases h1 : env.isBinaryFile p
  · simp [h1]
  · by_cases h2 : env.excludeEnabled && should_exclude env.exclude_patterns
        (pyRelpath p env.dirEntry)
    · simp [h1, h2]
    · by_cases h3 : populateExtPass env.extensions p
      · cases h4 : count_tokens_in_file env.isBinaryFile env.readTokens p <;>
          simp [h1, h2, h3, h4]
      · simp [h1, h2, h3]

theorem workerFileLoop_structure (env : TokenEnv) (cancel : Nat → Bool)
    (root : List Char) :
    ∀ (files : List (List Char)) (t total : Nat) (msgs : List TMsg),
      (∀ d n, TMsg.doneMsg d n ∉ msgs) →
      (∀ final, workerFileLoop env cancel root t total files msgs = .inl final →
          (∀ d n, TMsg.doneMsg d n ∉ final) ∧ TMsg.cancelledMsg ∈ final) ∧
      (∀ t' total' msgs',
          workerFileLoop env cancel root t total files msgs = .inr (t', total', msgs') →
          (∀ d n, TMsg.doneMsg d n ∉ msgs') ∧ t' = t + files.length) := by
  intro files
  induction files with
  | nil =>
    intro t total msgs hnd
    constructor
    · intro final h
      simp [workerFileLoop] at h
    · intro t' total' msgs' h
      simp only [workerFileLoop, Sum.inr.injEq, Prod.mk.injEq] at h
      obtain ⟨rfl, rfl, rfl⟩ := h
      exact ⟨hnd, by simp⟩
  | cons f fs ih =>
    intro t total msgs hnd
    have hnd' : ∀ d n, TMsg.doneMsg d n ∉
        msgs ++ (workerProcessFile env (pyJoin root f) total).1.toList := by
      intro d n hmem
      rcases List.mem_append.mp hmem with h | h
      · exact hnd d n h
      · have h2 := Option.mem_toList.mp h
        rw [Option.mem_def] at h2
        exact workerProcessFile_no_done env (pyJoin root f) total d n h2
    constructor
    · intro final h
      simp only [workerFileLoop] at h
      by_cases hct : cancel t
      · rw [if_pos hct] at h
        have hfin := Sum.inl.inj h
        subst hfin
        refine ⟨?_, by simp⟩
        intro d n hmem
        rcases List.mem_append.mp hmem with h' | h'
        · exact hnd d n h'
        · simp at h'
      · rw [if_neg hct] at h
        exact (ih (t + 1) _ _ hnd').1 final h
    · intro t' total' msgs' h
      simp only [workerFileLoop] at h
      by_cases hct : cancel t
      · rw [if_pos hct] at h
        simp at h
      · rw [if_neg hct] at h
        obtain ⟨h1, h2⟩ := (ih (t + 1) _ _ hnd').2 t' total' msgs' h
        refine ⟨h1, ?_⟩
        simp only [List.length_cons]
        omega

theorem workerFileLoop_cancels (env : TokenEnv) (cancel : Nat → Bool)
    (root : List Char) :
    ∀ (files : List (List Char)) (t total : Nat) (msgs : List TMsg),
      (∃ i, t ≤ i ∧ i < t + files.length ∧ cancel i = true) →
      ∃ final, workerFileLoop env cancel root t total files msgs = .inl final := by
  intro files
  induction files with
  | nil =>
    rintro t total msgs ⟨i, h1, h2, _⟩
    simp only [List.length_nil] at h2
    omega
  | cons f fs ih =>
    rintro t total msgs ⟨i, h1, h2, h3⟩
    simp only [List.length_cons] at h2
    simp only [workerFileLoop]
    by_cases hct : cancel t
    · rw [if_pos hct]
      exact ⟨_, rfl⟩
    · rw [if_neg hct]
      refine ih (t + 1) _ _ ⟨i, ?_, by omega, h3⟩
      rcases Nat.eq_or_lt_of_le h1 with rfl | h
      · exact absurd h3 (by simpa using hct)
      · omega

theorem walkChecks_cons (root : List Char) (files : List (List Char))
    (rest : List (List Char × List (List Char))) :
    walkChecks ((root, files) :: rest) = 1 + files.length + walkChecks rest := by
  simp [walkChecks]

theorem workerRootLoop_cancelled (env : TokenEnv) (cancel : Nat → Bool)
    (dirPath : List Char) :
    ∀ (walk : List (List Char × List (List Char))) (t total : Nat) (msgs : List TMsg),
      (∀ d n, TMsg.doneMsg d n ∉ msgs) →
      (∃ i, t ≤ i ∧ i < t + walkChecks walk ∧ cancel i = true) →
      (∀ d n, TMsg.doneMsg d n ∉ workerRootLoop env cancel dirPath t total walk msgs) ∧
        TMsg.cancelledMsg ∈ workerRootLoop env cancel dirPath t total walk msgs := by
  intro walk
  induction walk with
  | nil =>
    rintro t total msgs _ ⟨i, h1, h2, _⟩
    simp only [walkChecks, List.map_nil, List.sum_nil] at h2
    omega
  | cons rootFiles rest ih =>
    obtain ⟨root, files⟩ := rootFiles
    rintro t total msgs hnd ⟨i, h1, h2, h3⟩
    rw [walkChecks_cons] at h2
    simp only [workerRootLoop]
    by_cases hct : cancel t
    · rw [if_pos hct]
      refine ⟨?_, by simp⟩
      intro d n hmem
      rcases List.mem_append.mp hmem with h | h
      · exact hnd d n h
      · simp at h
    · rw [if_neg hct]
      cases hres : workerFileLoop env cancel root (t + 1) total files msgs with
      | inl final =>
        exact (workerFileLoop_structure env cancel root files (t + 1) total msgs hnd).1
          final hres
      | inr triple =>
        obtain ⟨t', total', msgs'⟩ := triple
        obtain ⟨hnd', ht'⟩ :=
          (workerFileLoop_structure env cancel root files (t + 1) total msgs hnd).2
            t' total' msgs' hres
        have hige : t' ≤ i := by
          by_contra hlt
          push_neg at hlt
          have hne : i ≠ t := fun h => hct (h ▸ h3)
          have : ∃ j, t + 1 ≤ j ∧ j < t + 1 + files.length ∧ cancel j = true :=
            ⟨i, by omega, by omega, h3⟩
          obtain ⟨final, hfin⟩ :=
            workerFileLoop_cancels env cancel root files (t + 1) total msgs this
          rw [hres] at hfin
          cases hfin
        exact ih t' total' msgs' hnd' ⟨i, hige, by omega, h3⟩

theorem drainCalculated_of_no_done (msgs : List TMsg) :
    ∀ calculated : List (List Char), (∀ d n, TMsg.doneMsg d n ∉ msgs) →
      drainCalculated calculated msgs = calculated := by
  induction msgs with
  | nil => intro c _; rfl
  | cons m rest ih =>
    intro c hnd
    cases m with
    | doneMsg d n => exact absurd (List.mem_cons_self _ _) (hnd d n)
    | progressMsg p k =>
      exact ih c fun d n hmem => hnd d n (List.mem_cons_of_mem _ hmem)
    | errorMsg p e =>
      exact ih c fun d n hmem => hnd d n (List.mem_cons_of_mem _ hmem)
    | cancelledMsg =>
      exact ih c fun d n hmem => hnd d n (List.mem_cons_of_mem _ hmem)

theorem mem_drainCalculated (msgs : List TMsg) :
    ∀ (c : List (List Char)) (d : List Char),
      d ∈ drainCalculated c msgs → d ∈ c ∨ ∃ n, TMsg.doneMsg d n ∈ msgs := by
  induction msgs with
  | nil =>
    intro c d h
    exact Or.inl h
  | cons m rest ih =>
    intro c d h
    simp only [drainCalculated, List.foldl_cons] at h
    cases m with
    | doneMsg d0 n0 =>
      rcases ih _ d h with hc | ⟨n, hn⟩
      · rcases List.mem_insert_iff.mp hc with rfl | hcc
        · exact Or.inr ⟨n0, by simp⟩
        · exact Or.inl hcc
      · exact Or.inr ⟨n, List.mem_cons_of_mem _ hn⟩
    | progressMsg p k =>
      rcases ih _ d h with hc | ⟨n, hn⟩
      · exact Or.inl hc
      · exact Or.inr ⟨n, List.mem_cons_of_mem _ hn⟩
    | errorMsg p e =>
      rcases ih _ d h with hc | ⟨n, hn⟩
      · exact Or.inl hc
      · exact Or.inr ⟨n, List.mem_cons_of_mem _ hn⟩
    | cancelledMsg =>
      rcases ih _ d h with hc | ⟨n, hn⟩
      · exact Or.inl hc
      · exact Or.inr ⟨n, List.mem_cons_of_mem _ hn⟩

/-- C1: if cancellation is requested while the aggregation walk for a directory is
in flight (some cancellation check reads the flag as set), the worker emits
`cancelled` and never `done`; draining the queue then leaves
`calculated_directories` unchanged — a directory enters the memo set only by
processing a `done` message — so a subsequent `calculate_directory_tokens`
request for the directory re-walks it instead of reusing partial results. -/
theorem cancelled_aggregation_never_cached (env : TokenEnv) (cancel : Nat → Bool)
    (dirPath : List Char) (walk : List (List Char × List (List Char)))
    (calculated : List (List Char))
    (hcancel : ∃ i, i < walkChecks walk ∧ cancel i = true) :
    (TMsg.cancelledMsg ∈ token_calculation_thread env cancel dirPath walk ∧
        ∀ d n, TMsg.doneMsg d n ∉ token_calculation_thread env cancel dirPath walk) ∧
      drainCalculated calculated (token_calculation_thread env cancel dirPath walk)
        = calculated ∧
      (∀ (msgs : List TMsg) (c : List (List Char)) (d : List Char),
          d ∈ drainCalculated c msgs → d ∈ c ∨ ∃ n, TMsg.doneMsg d n ∈ msgs) ∧
      (dirPath ∉ calculated →
        calculate_directory_tokens_runs
          (drainCalculated calculated (token_calculation_thread env cancel dirPath walk))
          dirPath = true) := by
  obtain ⟨i, hi, hc⟩ := hcancel
  obtain ⟨hnd, hmem⟩ := workerRootLoop_cancelled env cancel dirPath walk 0 0 []
    (by intro d n h; cases h) ⟨i, Nat.zero_le i, by omega, hc⟩
  have hdrain : drainCalculated calculated (token_calculation_thread env cancel dirPath walk)
      = calculated :=
    drainCalculated_of_no_done _ calculated hnd
  refine ⟨⟨hmem, hnd⟩, hdrain, fun msgs c d => mem_drainCalculated msgs c d, ?_⟩
  intro hnotin
  rw [hdrain]
  simp [calculate_directory_tokens_runs, hnotin]

/-- C1 witness: a one-directory walk with the flag set from the start. -/
theorem cancelled_aggregation_never_cached_witness :
    (TMsg.cancelledMsg ∈ token_calculation_thread
          ⟨[], false, [], [], fun _ => false, fun _ => .ok 0⟩
          (fun _ => true) ['d'] [(['d'], [['f']])] ∧
        ∀ d n, TMsg.doneMsg d n ∉ token_calculation_thread
          ⟨[], false, [], [], fun _ => false, fun _ => .ok 0⟩
          (fun _ => true) ['d'] [(['d'], [['f']])]) ∧
      drainCalculated [] (token_calculation_thread
          ⟨[], false, [], [], fun _ => false, fun _ => .ok 0⟩
          (fun _ => true) ['d'] [(['d'], [['f']])]) = [] ∧
      (∀ (msgs : List TMsg) (c : List (List Char)) (d : List Char),
          d ∈ drainCalculated c msgs → d ∈ c ∨ ∃ n, TMsg.doneMsg d n ∈ msgs) ∧
      (['d'] ∉ ([] : List (List Char)) →
        calculate_directory_tokens_runs
          (drainCalculated [] (token_calculation_thread
            ⟨[], false, [], [], fun _ => false, fun _ => .ok 0⟩
            (fun _ => true) ['d'] [(['d'], [['f']])]))
          ['d'] = true) :=
  cancelled_aggregation_never_cached _ _ _ _ _ ⟨0, by decide, rfl⟩

/-! ## `populate_tree` (main.py lines 658–765)

The OS surface used by `populate_tree` (normpath, realpath, listdir, islink,
isdir, isfile) and the tokeniser are collected in an `FSWorld`.  The function
normalises the path, runs the `is_safe_path` cycle guard (inserting a skip
marker node and returning when it fails), then lists the directory contents:
one pass inserting folders (symlinked directories as symlink nodes, symlinks to
files skipped, excluded folders marked), one pass inserting files (excluded
marked; extension-filtered; error / binary / token-counted). -/

structure FSWorld where
  realpath : List Char → Option (List Char)
  normpath : List Char → List Char
  listdir : List Char → List (List Char)
  islink : List Char → Bool
  isdir : List Char → Bool
  isfile : List Char → Bool
  isBinaryFile : List Char → Bool
  readTokens : List Char → Except (List Char) Nat

/-- One row inserted into the tree view by `populate_tree`. -/
inductive PNode where
  | skippedNode
  | symlinkDirNode (name : List Char) (target : Option (List Char))
  | excludedFolderNode (name : List Char)
  | folderNode (name : List Char)
  | excludedFileNode (name : List Char)
  | binaryFileNode (name : List Char)
  | fileTokNode (name : List Char) (tokens : Nat)
  | errorFileNode (name : List Char)
deriving DecidableEq

def populate_tree (w : FSWorld) (dirEntry : List Char) (excludeEnabled : Bool)
    (exclude_patterns : List (List Char)) (extensions : List (List Char))
    (visited : List (List Char)) (path : List Char) :
    List PNode × List (List Char) :=
  let npath := w.normpath path
  let safety := is_safe_path w.realpath visited npath
  if safety.1 = false then ([PNode.skippedNode], safety.2)
  else
    let items := pySorted strLeB (w.listdir npath)
    let folders := items.flatMap fun item =>
      let item_path := w.normpath (pyJoin npath item)
      let rel := pyRelpath item_path dirEntry
      if w.islink item_path then
        (if w.isdir item_path then [PNode.symlinkDirNode item (w.realpath item_path)]
         else [])
      else if w.isdir item_path then
        (if excludeEnabled && should_exclude exclude_patterns rel then
          [PNode.excludedFolderNode item]
         else [PNode.folderNode item])
      else []
    let files := items.flatMap fun item =>
      let item_path := w.normpath (pyJoin npath item)
      let rel := pyRelpath item_path dirEntry
      if w.isfile item_path then
        (if excludeEnabled && should_exclude exclude_patterns rel then
          [PNode.excludedFileNode item]
         else if populateExtPass extensions item then
           (match count_tokens_in_file w.isBinaryFile w.readTokens item_path with
            | .error _ => [PNode.errorFileNode item]
            | .ok tc =>
              if tc = 0 && w.isBinaryFile item_path then [PNode.binaryFileNode item]
              else [PNode.fileTokNode item tc])
         else [])
      else []
    (folders ++ files, safety.2)

/-- C5 (amended): within one traversal session `populate_tree` is not idempotent.
A fresh listing inserts the folder's canonical path into the session's visited
set and contains no cycle-skip marker; a second listing of the same folder in
the same session hits the `is_safe_path` guard and yields exactly the single
skip-marker node. (With the session reset between calls the outputs agree
trivially, the listing being a pure function of the world and session.) -/
theorem populate_tree_same_session (w : FSWorld) (dirEntry : List Char)
    (excludeEnabled : Bool) (exclude_patterns extensions : List (List Char))
    (visited : List (List Char)) (path rp : List Char)
    (hrp : w.realpath (w.normpath path) = some rp) (hfresh : rp ∉ visited) :
    (populate_tree w dirEntry excludeEnabled exclude_patterns extensions
        visited path).2 = rp :: visited ∧
      PNode.skippedNode ∉ (populate_tree w dirEntry excludeEnabled exclude_patterns
        extensions visited path).1 ∧
      populate_tree w dirEntry excludeEnabled exclude_patterns extensions
          (populate_tree w dirEntry excludeEnabled exclude_patterns extensions
            visited path).2 path
        = ([PNode.skippedNode], rp :: visited) := by
  have hsafe : is_safe_path w.realpath visited (w.normpath path) = (true, rp :: visited) := by
    simp [is_safe_path, hrp, hfresh]
  have h2 : (populate_tree w dirEntry excludeEnabled exclude_patterns extensions
      visited path).2 = rp :: visited := by
    simp only [populate_tree]
    rw [hsafe]
    simp
  refine ⟨h2, ?_, ?_⟩
  · simp only [populate_tree]
    rw [hsafe]
    simp only [Bool.true_eq_false, if_false, List.mem_append, List.mem_flatMap]
    rintro (⟨item, _, hx⟩ | ⟨item, _, hx⟩) <;>
      · repeat' split at hx
        all_goals simp at hx
  · rw [h2]
    have hsafe2 : is_safe_path w.realpath (rp :: visited) (w.normpath path)
        = (false, rp :: visited) := by
      simp [is_safe_path, hrp]
    simp only [populate_tree]
    rw [hsafe2]
    simp

/-- Concrete world for the C5 theorems: directory `d` containing one plain file
`a`. -/
def W5 : FSWorld where
  realpath := fun p => some p
  normpath := fun p => p
  listdir := fun _ => [['a']]
  islink := fun _ => false
  isdir := fun p => p == ['d']
  isfile := fun p => !(p == ['d'])
  isBinaryFile := fun _ => false
  readTokens := fun _ => .ok 3

/-- C5 counterexample: listing folder `d` twice in the same traversal session is
not idempotent — the first call yields the file row, the second call yields the
cycle-skip marker introduced by the repeated invocation. -/
theorem populate_tree_revisit_counterexample :
    populate_tree W5 [] true [] [] [] ['d'] = ([PNode.fileTokNode ['a'] 3], [['d']]) ∧
      populate_tree W5 [] true [] [] [['d']] ['d'] = ([PNode.skippedNode], [['d']]) ∧
      ([PNode.fileTokNode ['a'] 3] : List PNode) ≠ [PNode.skippedNode] := by
  refine ⟨by decide, by decide, by decide⟩

/-- C5 witness: `populate_tree_same_session` instantiated at the concrete world. -/
theorem populate_tree_same_session_witness :
    (populate_tree W5 [] true [] [] [] ['d']).2 = [['d']] ∧
      PNode.skippedNode ∉ (populate_tree W5 [] true [] [] [] ['d']).1 ∧
      populate_tree W5 [] true [] []
          (populate_tree W5 [] true [] [] [] ['d']).2 ['d']
        = ([PNode.skippedNode], [['d']]) :=
  populate_tree_same_session W5 [] true [] [] [] ['d'] ['d'] rfl (by decide)

/-! ## `MarkdownGenerator.generate_directory_tree` (markdown_generator.py, 132–196)

The file system below a root is modelled as a forest of `FSEntry` values (the
recursive `os.scandir` view).  `add_directory_to_tree` mirrors the nested
`add_directory_to_tree(dir_path, prefix)`: sort entries by
`(not is_dir, name.lower())`, compute `is_last` from the position in the full
sorted list, skip an entry when
`exclude_patterns and any(p in rel_path for p in exclude_patterns)` holds —
a SUBSTRING test on the whole relative path — and recurse into directories.
Emitted lines are kept structured (`TreeLine`), with `renderTreeLine` producing
the exact f-string text. -/

inductive FSEntry where
  | fileE (name : List Char)
  | dirE (name : List Char) (children : List FSEntry)

def entryName : FSEntry → List Char
  | .fileE nm => nm
  | .dirE nm _ => nm

def entryIsDir : FSEntry → Bool
  | .fileE _ => false
  | .dirE _ _ => true

mutual

def entrySize : FSEntry → Nat
  | .fileE _ => 1
  | .dirE _ cs => 1 + entriesSize cs

def entriesSize : List FSEntry → Nat
  | [] => 0
  | e :: es => entrySize e + entriesSize es

end

theorem entriesSize_eq_sum (es : List FSEntry) :
    entriesSize es = (es.map entrySize).sum := by
  induction es with
  | nil => rfl
  | cons e es ih => simp [entriesSize, ih]

theorem entrySize_pos (e : FSEntry) : 1 ≤ entrySize e := by
  cases e <;> simp [entrySize]

theorem entriesSize_perm {es es' : List FSEntry} (h : es.Perm es') :
    entriesSize es = entriesSize es' := by
  rw [entriesSize_eq_sum, entriesSize_eq_sum]
  exact (h.map entrySize).sum_eq

/-- The `sorted(os.scandir(...), key=lambda e: (not e.is_dir(), e.name.lower()))`
comparison: directories before files, then case-insensitive name order. -/
def scandirKeyLe (a b : FSEntry) : Bool :=
  if entryIsDir a = entryIsDir b then
    strLeB (lowerStr (entryName a)) (lowerStr (entryName b))
  else entryIsDir a

def sortEntries (es : List FSEntry) : List FSEntry :=
  pySorted scandirKeyLe es

theorem entriesSize_sortEntries (es : List FSEntry) :
    entriesSize (sortEntries es) = entriesSize es :=
  entriesSize_perm (pySorted_perm scandirKeyLe es)

/-- The skip guard of the tree generator:
`exclude_patterns and any(p in rel_path for p in exclude_patterns)`
(`None` and the empty set are both modelled as the empty list). -/
def shouldPruneEntry (exclude_patterns : List (List Char)) (rel : List Char) : Bool :=
  !exclude_patterns.isEmpty && exclude_patterns.any fun p => pyContains rel p

/-- The relative path `os.path.relpath(entry.path, root_dir)` of a child named
`nm` below the context `ctx` (the parent's relative path, empty at the root);
the OS separator is modelled as `/`. -/
def joinRel (ctx nm : List Char) : List Char :=
  if ctx.isEmpty then nm else ctx ++ '/' :: nm

/-- One `tree_lines.append` of the generator, structured: the accumulated
box-drawing leader, position flag, kind, entry name and relative path. -/
structure TreeLine where
  leader : List Char
  isLast : Bool
  isDirLine : Bool
  name : List Char
  rel : List Char
deriving DecidableEq

/-- The text of a structured line, exactly as the source formats it. -/
def renderTreeLine (l : TreeLine) : List Char :=
  l.leader ++ (if l.isLast then "└── ".data else "├── ".data)
    ++ (if l.isDirLine then "📂 ".data else []) ++ l.name

/-- The `for i, entry in enumerate(entries)` loop over an already-sorted entry
list: `is_last` at the final position, skip on `shouldPruneEntry` (subtree
included), recurse into directories with the extended leader over freshly
sorted children. -/
def addEntriesLoop (exclude_patterns : List (List Char)) (ctx leader : List Char)
    (es : List FSEntry) : List TreeLine :=
  match es with
  | [] => []
  | e :: rest =>
    let isLast := rest.isEmpty
    let rel := joinRel ctx (entryName e)
    (if shouldPruneEntry exclude_patterns rel then []
     else
       match e with
       | .fileE nm => [⟨leader, isLast, false, nm, rel⟩]
       | .dirE nm cs =>
         ⟨leader, isLast, true, nm, rel⟩ ::
           addEntriesLoop exclude_patterns rel
             (leader ++ (if isLast then "    ".data else "│   ".data))
             (sortEntries cs))
      ++ addEntriesLoop exclude_patterns ctx leader rest
termination_by entriesSize es
decreasing_by
  · rw [entriesSize_sortEntries]
    simp only [entriesSize, entrySize]
    omega
  · have := entrySize_pos e
    simp only [entriesSize]
    omega

/-- Embeds `add_directory_to_tree(dir_path, prefix)`: sort the directory's entries and
run the loop. -/
def add_directory_to_tree (exclude_patterns : List (List Char))
    (ctx leader : List Char) (es : List FSEntry) : List TreeLine :=
  addEntriesLoop exclude_patterns ctx leader (sortEntries es)

mutual

/-- All relative paths of the entries in the subtree rooted at one entry. -/
def entryPathsOf : List Char → FSEntry → List (List Char)
  | ctx, .fileE nm => [joinRel ctx nm]
  | ctx, .dirE nm cs => joinRel ctx nm :: entryPathsList (joinRel ctx nm) cs

/-- All relative paths of the entries of a forest below the context `ctx`. -/
def entryPathsList : List Char → List FSEntry → List (List Char)
  | _, [] => []
  | ctx, c :: cs => entryPathsOf ctx c ++ entryPathsList ctx cs

end

theorem mem_entryPathsList (ctx : List Char) (es : List FSEntry) (r : List Char) :
    r ∈ entryPathsList ctx es ↔ ∃ e ∈ es, r ∈ entryPathsOf ctx e := by
  induction es with
  | nil => simp [entryPathsList]
  | cons c cs ih =>
    simp only [entryPathsList, List.mem_append, ih, List.mem_cons]
    constructor
    · rintro (h | ⟨e, he, hr⟩)
      · exact ⟨c, Or.inl rfl, h⟩
      · exact ⟨e, Or.inr he, hr⟩
    · rintro ⟨e, rfl | he, hr⟩
      · exact Or.inl hr
      · exact Or.inr ⟨e, he, hr⟩

theorem ctx_infix_joinRel (ctx nm : List Char) : ctx <:+: joinRel ctx nm := by
  unfold joinRel
  split
  · have h : ctx = [] := by simpa [List.isEmpty_iff] using ‹ctx.isEmpty = true›
    subst h
    exact List.nil_infix
  · exact List.IsPrefix.isInfix (List.prefix_append ctx ('/' :: nm))

mutual

theorem ctx_infix_of_entryPaths (ctx : List Char) (e : FSEntry) (r : List Char)
    (h : r ∈ entryPathsOf ctx e) : ctx <:+: r := by
  cases e with
  | fileE nm =>
    simp only [entryPathsOf, List.mem_singleton] at h
    subst h
    exact ctx_infix_joinRel ctx nm
  | dirE nm cs =>
    simp only [entryPathsOf, List.mem_cons] at h
    rcases h with rfl | h
    · exact ctx_infix_joinRel ctx nm
    · exact (ctx_infix_joinRel ctx nm).trans
        (ctx_infix_of_entryPathsList (joinRel ctx nm) cs r h)

theorem ctx_infix_of_entryPathsList (ctx : List Char) (es : List FSEntry) (r : List Char)
    (h : r ∈ entryPathsList ctx es) : ctx <:+: r := by
  cases es with
  | nil => simp [entryPathsList] at h
  | cons c cs =>
    simp only [entryPathsList, List.mem_append] at h
    rcases h with h | h
    · exact ctx_infix_of_entryPaths ctx c r h
    · exact ctx_infix_of_entryPathsList ctx cs r h

end

theorem shouldPruneEntry_mono {pats : List (List Char)} {r1 r2 : List Char}
    (h12 : r1 <:+: r2) (h : shouldPruneEntry pats r1 = true) :
    shouldPruneEntry pats r2 = true := by
  unfold shouldPruneEntry pyContains at *
  simp only [Bool.and_eq_true, List.any_eq_true, decide_eq_true_eq] at *
  obtain ⟨hne, p, hp, hinf⟩ := h
  exact ⟨hne, p, hp, hinf.trans h12⟩

theorem addEntriesLoop_unpruned (pats : List (List Char)) :
    ∀ (n : Nat) (es : List FSEntry) (ctx leader : List Char) (l : TreeLine),
      entriesSize es < n → l ∈ addEntriesLoop pats ctx leader es →
      shouldPruneEntry pats l.rel = false := by
  intro n
  induction n with
  | zero =>
    intro es ctx leader l hsize _
    exact absurd hsize (Nat.not_lt_zero _)
  | succ n ih =>
    intro es ctx leader l hsize hmem
    cases es with
    | nil => simp [addEntriesLoop] at hmem
    | cons e rest =>
      simp only [entriesSize] at hsize
      have hre := entrySize_pos e
      cases e with
      | fileE nm =>
        simp only [addEntriesLoop, entryName] at hmem
        rcases List.mem_append.mp hmem with h | h
        · by_cases hp : shouldPruneEntry pats (joinRel ctx nm) = true
          · rw [if_pos hp] at h
            simp at h
          · rw [if_neg hp] at h
            simp only [List.mem_singleton] at h
            subst h
            simpa using hp
        · exact ih rest ctx leader l (by omega) h
      | dirE nm cs =>
        simp only [addEntriesLoop, entryName] at hmem
        rcases List.mem_append.mp hmem with h | h
        · by_cases hp : shouldPruneEntry pats (joinRel ctx nm) = true
          · rw [if_pos hp] at h
            simp at h
          · rw [if_neg hp] at h
            rcases List.mem_cons.mp h with rfl | h2
            · simpa using hp
            · refine ih (sortEntries cs) _ _ l ?_ h2
              rw [entriesSize_sortEntries]
              simp only [entrySize] at hre hsize
              omega
        · exact ih rest ctx leader l (by simp only [entrySize] at hsize; omega) h

theorem addEntriesLoop_mem_of_unpruned (pats : List (List Char)) :
    ∀ (n : Nat) (es : List FSEntry) (ctx leader r : List Char) (e : FSEntry),
      entriesSize es < n → e ∈ es → r ∈ entryPathsOf ctx e →
      shouldPruneEntry pats r = false →
      r ∈ (addEntriesLoop pats ctx leader es).map TreeLine.rel := by
  intro n
  induction n with
  | zero =>
    intro es ctx leader r e hsize _ _ _
    exact absurd hsize (Nat.not_lt_zero _)
  | succ n ih =>
    intro es ctx leader r e hsize he hr hnp
    cases es with
    | nil => cases he
    | cons f rest =>
      simp only [entriesSize] at hsize
      have hrf := entrySize_pos f
      rcases List.mem_cons.mp he with rfl | he'
      · cases e with
        | fileE nm =>
          simp only [addEntriesLoop, entryName]
          rw [List.map_append, List.mem_append]
          left
          simp only [entryPathsOf, List.mem_singleton] at hr
          subst hr
          rw [if_neg (by simp [hnp])]
          simp
        | dirE nm cs =>
          simp only [addEntriesLoop, entryName]
          rw [List.map_append, List.mem_append]
          left
          simp only [entryPathsOf, List.mem_cons] at hr
          have hguard : ¬ shouldPruneEntry pats (joinRel ctx nm) = true := by
            rcases hr with rfl | hdesc
            · simp [hnp]
            · intro hcontra
              have hinf : joinRel ctx nm <:+: r :=
                ctx_infix_of_entryPathsList (joinRel ctx nm) cs r hdesc
              have h2 := shouldPruneEntry_mono hinf hcontra
              rw [hnp] at h2
              cases h2
          rw [if_neg hguard]
          rcases hr with rfl | hdesc
          · simp
          · simp only [List.map_cons, List.mem_cons]
            right
            obtain ⟨c, hc, hrc⟩ := (mem_entryPathsList (joinRel ctx nm) cs r).mp hdesc
            refine ih (sortEntries cs) _ _ r c ?_ ((mem_pySorted _ _ _).mpr hc) hrc hnp
            rw [entriesSize_sortEntries]
            simp only [entrySize] at hsize
            omega
      · cases f with
        | fileE nm =>
          simp only [addEntriesLoop, entryName]
          rw [List.map_append, List.mem_append]
          right
          exact ih rest ctx leader r e (by omega) he' hr hnp
        | dirE nm cs =>
          simp only [addEntriesLoop, entryName]
          rw [List.map_append, List.mem_append]
          right
          exact ih rest ctx leader r e
            (by simp only [entrySize] at hsize; omega) he' hr hnp

/-- C4 (amended): in the digest's directory-tree preamble an entry (reached
through unpruned ancestors or not) is rendered iff NO exclude pattern occurs as a
SUBSTRING of its relative path — the guard is
`any(p in rel_path for p in exclude_patterns)`, not an exact path-component
match, so an entry whose relative path merely contains a pattern inside a longer
component is pruned together with its subtree. -/
theorem tree_rendered_iff_not_substring_pruned (exclude_patterns : List (List Char))
    (root : List FSEntry) (r : List Char) (hr : r ∈ entryPathsList [] root) :
    r ∈ (add_directory_to_tree exclude_patterns [] [] root).map TreeLine.rel ↔
      shouldPruneEntry exclude_patterns r = false := by
  unfold add_directory_to_tree
  constructor
  · intro hmem
    obtain ⟨l, hl, hrel⟩ := List.mem_map.mp hmem
    subst hrel
    exact addEntriesLoop_unpruned exclude_patterns
      (entriesSize (sortEntries root) + 1) _ _ _ l (Nat.lt_succ_self _) hl
  · intro hnp
    obtain ⟨e, he, hre⟩ := (mem_entryPathsList [] root r).mp hr
    exact addEntriesLoop_mem_of_unpruned exclude_patterns
      (entriesSize (sortEntries root) + 1) (sortEntries root) [] [] r e
      (by rw [entriesSize_sortEntries]; exact Nat.lt_succ_self _)
      ((mem_pySorted _ _ _).mpr he) hre hnp

/-- C4 counterexample: with pattern `env`, the entry `environment` (present in
the file system, and with NO path component exactly equal to a pattern, so the
claim says it is rendered) is pruned from the tree. -/
theorem tree_prune_substring_counterexample :
    "environment".data ∈ entryPathsList [] [FSEntry.fileE "environment".data] ∧
      "environment".data ∉ (add_directory_to_tree ["env".data] [] []
          [FSEntry.fileE "environment".data]).map TreeLine.rel ∧
      ¬ ∃ part ∈ pathComponents "environment".data, part ∈ ["env".data] := by
  refine ⟨by decide, ?_, by decide⟩
  intro hmem
  unfold add_directory_to_tree at hmem
  obtain ⟨l, hl, hrel⟩ := List.mem_map.mp hmem
  have h := addEntriesLoop_unpruned ["env".data]
    (entriesSize (sortEntries [FSEntry.fileE "environment".data]) + 1) _ _ _ l
    (Nat.lt_succ_self _) hl
  rw [hrel] at h
  exact absurd h (by decide)

/-- C4 witness: `tree_rendered_iff_not_substring_pruned` at a concrete forest. -/
theorem tree_rendered_iff_witness :
    "main.py".data ∈ (add_directory_to_tree ["env".data] [] []
        [FSEntry.fileE "main.py".data]).map TreeLine.rel ↔
      shouldPruneEntry ["env".data] "main.py".data = false :=
  tree_rendered_iff_not_substring_pruned ["env".data]
    [FSEntry.fileE "main.py".data] "main.py".data (by decide)

theorem pyDirname_eq_or_length_lt (p : List Char) :
    pyDirname p = p ∨ (pyDirname p).length < p.length := by
  unfold pyDirname
  have hdsuf : (p.reverse.dropWhile fun c => !(c == '/')) <:+ p.reverse :=
    List.dropWhile_suffix _
  have hdlen : (p.reverse.dropWhile fun c => !(c == '/')).length ≤ p.length := by
    have := hdsuf.length_le
    simpa using this
  by_cases hcond : (p.reverse.dropWhile fun c => !(c == '/')).reverse ≠ [] ∧
      ¬ ((p.reverse.dropWhile fun c => !(c == '/')).reverse).all (· == '/')
  · rw [if_pos hcond]
    right
    have hres : dropTrailingSlashes (p.reverse.dropWhile fun c => !(c == '/')).reverse
        = ((p.reverse.dropWhile fun c => !(c == '/')).dropWhile (· == '/')).reverse := by
      unfold dropTrailingSlashes
      rw [List.reverse_reverse]
    rw [hres]
    have hdne : (p.reverse.dropWhile fun c => !(c == '/')) ≠ [] := by
      intro h0
      exact hcond.1 (by simp [h0])
    have hhead := List.head_dropWhile_not (fun c => !(c == '/')) p.reverse hdne
    obtain ⟨c, t, hct⟩ := List.exists_cons_of_ne_nil hdne
    have hEq : (p.reverse.dropWhile fun c => !(c == '/')).head hdne = c := by
      have h4 : (p.reverse.dropWhile fun c => !(c == '/')).head? = some c := by
        rw [hct]
        rfl
      rw [List.head?_eq_head hdne] at h4
      exact Option.some.inj h4
    have hc : c = '/' := by
      rw [hEq] at hhead
      simpa using hhead
    subst hc
    have hlen2 : ('/' :: t).length ≤ p.length := hct ▸ hdlen
    rw [hct]
    have hlt : ((('/' :: t).dropWhile (· == '/'))).length ≤ t.length := by
      rw [List.dropWhile_cons_of_pos (by simp)]
      exact (List.dropWhile_suffix _).length_le
    simp only [List.length_reverse, List.length_cons] at *
    omega
  · rw [if_neg hcond]
    by_cases hlen : (p.reverse.dropWhile fun c => !(c == '/')).length = p.length
    · left
      have heq : (p.reverse.dropWhile fun c => !(c == '/')) = p.reverse :=
        hdsuf.eq_of_length (by simpa using hlen)
      rw [heq, List.reverse_reverse]
    · right
      simp only [List.length_reverse]
      omega

/-! ## `generate_markdown_to_string` (markdown_generator.py, lines 198–274)

Remaining OS surface: `os.path.isdir`, `os.path.exists`, reading a file as
UTF-8 text, and the `os.scandir` forest below a path, collected in `MDWorld`.
The per-file output is kept structured (`MDBlock`, rendered by `renderBlock`
exactly as the source's `buffer.write` calls). -/

/-- The `while repo_root and not os.path.exists(os.path.join(repo_root, '.git'))`
upward walk (lines 219–223), including the `parent == repo_root` break. -/
def findRepoRoot (pathExists : List Char → Bool) (r : List Char) : List Char :=
  if r ≠ [] ∧ ¬ pathExists (pyJoin r ".git".data) = true then
    (if hp : pyDirname r = r then r else findRepoRoot pathExists (pyDirname r))
  else r
termination_by r.length
decreasing_by
  rcases pyDirname_eq_or_length_lt r with he | hl
  · exact absurd he hp
  · exact hl

/-- The fixed `extension_map` of `get_language_identifier`. -/
def extensionMap : List (List Char × List Char) :=
  [(".py".data, "python".data), (".js".data, "javascript".data),
   (".html".data, "html".data), (".css".data, "css".data),
   (".md".data, "markdown".data), (".json".data, "json".data),
   (".xml".data, "xml".data), (".sql".data, "sql".data),
   (".sh".data, "bash".data), (".cpp".data, "cpp".data),
   (".c".data, "c".data), (".java".data, "java".data)]

/-- The extension part of `os.path.splitext` (POSIX semantics): from the last
dot of the basename, provided a non-dot character precedes it. -/
def pySplitextExt (p : List Char) : List Char :=
  let base := pyBasename p
  match rfindChar '.' base with
  | none => []
  | some d => if (base.take d).any (fun c => !(c == '.')) then base.drop d else []

/-- Embeds `MarkdownGenerator.get_language_identifier`. -/
def get_language_identifier (filename : List Char) : List Char :=
  match extensionMap.lookup (lowerStr (pySplitextExt filename)) with
  | some lang => lang
  | none => []

structure MDWorld where
  isdir : List Char → Bool
  pathExists : List Char → Bool
  readText : List Char → Except (List Char) (List Char)
  scandirTree : List Char → List FSEntry

/-- Embeds `MarkdownGenerator.generate_directory_tree`: header lines, the `📦` root
line (root name falling back from basename through parent basename to the raw
path), the rendered entry lines, the closing fence; joined with newlines. -/
def generate_directory_tree (w : MDWorld) (exclude_patterns : List (List Char))
    (root_dir : List Char) : List Char :=
  let root_name :=
    if ¬ (pyBasename root_dir).isEmpty then pyBasename root_dir
    else if ¬ (pyBasename (pyDirname root_dir)).isEmpty then
      pyBasename (pyDirname root_dir)
    else root_dir
  List.intercalate ['\n']
    (["# Repository Structure\n".data, "```".data, "📦 ".data ++ root_name]
      ++ (add_directory_to_tree exclude_patterns [] [] (w.scandirTree root_dir)).map
          renderTreeLine
      ++ ["```\n".data])

/-- One per-file section of the digest body: the header plus either the fenced
content or the inline read-error line. -/
inductive MDBlock where
  | contentB (relPath lang content : List Char)
  | readErrB (relPath msg : List Char)
deriving DecidableEq

def blockRel : MDBlock → List Char
  | .contentB r _ _ => r
  | .readErrB r _ => r

/-- The text the source writes for one block: `# {rel}\n\n` then either
`‌```{lang}\n{content}\n```\n\n` or `Error reading file - {rel}: {msg}\n\n`. -/
def renderBlock : MDBlock → List Char
  | .contentB rel lang content =>
    "# ".data ++ rel ++ "\n\n".data ++ "```".data ++ lang ++ "\n".data
      ++ content ++ "\n```\n\n".data
  | .readErrB rel msg =>
    "# ".data ++ rel ++ "\n\n".data ++ "Error reading file - ".data ++ rel
      ++ ": ".data ++ msg ++ "\n\n".data

/-- The body of the `for file_path in file_paths` loop (lines 246–263): skip
directories; otherwise emit one block for this occurrence. -/
def processPath (w : MDWorld) (commonPrefixPath p : List Char) : List MDBlock :=
  if w.isdir p then []
  else
    match w.readText p with
    | .ok content =>
      [.contentB (pyRelpath p commonPrefixPath) (get_language_identifier p) content]
    | .error e => [.readErrB (pyRelpath p commonPrefixPath) e]

/-- All blocks of the digest body, one group per input occurrence, in input
order — the loop never deduplicates. -/
def composeBlocks (w : MDWorld) (commonPrefixPath : List Char)
    (file_paths : List (List Char)) : List MDBlock :=
  file_paths.flatMap (processPath w commonPrefixPath)

/-- Embeds `MarkdownGenerator.generate_markdown_to_string`: common prefix of the
parents, repository-root search, optional tree preamble, then the body blocks;
`(False, message)` only when an unguarded exception (modelled: `commonpath`'s
`ValueError`) escapes to the outer handler. -/
def generate_markdown_to_string (w : MDWorld) (exclude_patterns : List (List Char))
    (file_paths : List (List Char)) : Bool × List Char :=
  if 0 < file_paths.length then
    match pyCommonpath (file_paths.map pyDirname) with
    | .error _ => (false, "Failed to generate markdown".data)
    | .ok commonPrefixPath =>
      let rr := findRepoRoot w.pathExists commonPrefixPath
      let repo_root := if w.pathExists (pyJoin rr ".git".data) then rr else commonPrefixPath
      let headerPart :=
        if ¬ repo_root.isEmpty then
          generate_directory_tree w exclude_patterns repo_root
            ++ "\n\n# Selected Files\n\n".data
        else []
      (true,
        headerPart ++ ((composeBlocks w commonPrefixPath file_paths).map renderBlock).flatten)
  else (true, ((composeBlocks w [] file_paths).map renderBlock).flatten)

/-- C10: composing an empty selection succeeds with the empty document — no
Repository Structure section, no `# Selected Files` header, no error. -/
theorem generate_markdown_empty (w : MDWorld) (exclude_patterns : List (List Char)) :
    generate_markdown_to_string w exclude_patterns [] = (true, []) := by
  simp [generate_markdown_to_string, composeBlocks]

/-- The deduplication in the caller `copy_markdown_to_clipboard` (main.py line
620): `list(dict.fromkeys(selected_files))` — keep the first occurrence of each
path, drop the rest, preserve order. -/
def pyDedupFirst : List (List Char) → List (List Char)
  | [] => []
  | x :: xs => x :: pyDedupFirst (xs.filter fun y => !(y == x))
termination_by l => l.length
decreasing_by
  simp only [List.length_cons]
  exact Nat.lt_succ_of_le (List.length_filter_le _ _)

theorem pyDedupFirst_spec :
    ∀ (n : Nat) (l : List (List Char)), l.length < n →
      (∀ a, a ∈ pyDedupFirst l ↔ a ∈ l) ∧ (pyDedupFirst l).Nodup ∧
        (pyDedupFirst l).Sublist l := by
  intro n
  induction n with
  | zero =>
    intro l h
    exact absurd h (Nat.not_lt_zero _)
  | succ n ih =>
    intro l hlen
    cases l with
    | nil =>
      refine ⟨fun a => ?_, ?_, ?_⟩ <;> simp [pyDedupFirst]
    | cons x xs =>
      have hflt : (xs.filter fun y => !(y == x)).length < n := by
        have := List.length_filter_le (fun y => !(y == x)) xs
        simp only [List.length_cons] at hlen
        omega
      obtain ⟨ihmem, ihnd, ihsub⟩ := ih _ hflt
      simp only [pyDedupFirst]
      refine ⟨?_, ?_, ?_⟩
      · intro a
        simp only [List.mem_cons, ihmem, List.mem_filter]
        constructor
        · rintro (rfl | ⟨ha, _⟩)
          · exact Or.inl rfl
          · exact Or.inr ha
        · rintro (rfl | ha)
          · exact Or.inl rfl
          · by_cases hax : a = x
            · exact Or.inl hax
            · exact Or.inr ⟨ha, by simpa using hax⟩
      · rw [List.nodup_cons]
        refine ⟨?_, ihnd⟩
        intro hx
        have h2 := (ihmem x).mp hx
        rw [List.mem_filter] at h2
        simpa using h2.2
      · exact List.Sublist.cons₂ x (ihsub.trans (List.filter_sublist xs))

theorem composeBlocks_map_blockRel (w : MDWorld) (cp : List Char)
    (paths : List (List Char)) :
    (composeBlocks w cp paths).map blockRel
      = (paths.filter fun p => !(w.isdir p)).map fun p => pyRelpath p cp := by
  induction paths with
  | nil => simp [composeBlocks]
  | cons p rest ih =>
    simp only [composeBlocks, List.flatMap_cons, List.map_append, List.filter_cons] at *
    by_cases hd : w.isdir p
    · simp [processPath, hd, ih]
    · cases hrt : w.readText p <;> simp [processPath, hd, hrt, ih, blockRel]

/-- C8 (amended): `generate_markdown_to_string` itself never deduplicates — its
body holds exactly one header+block per input OCCURRENCE of each non-directory
path, in input order.  The first-occurrence-wins deduplication happens in the
caller `copy_markdown_to_clipboard` (`list(dict.fromkeys(...))`), whose output
is duplicate-free, order-preserving and membership-equal to its input, so the
caller-composed pipeline emits exactly one block per distinct selected file
path, at the position of its first occurrence. -/
theorem compose_dedup_in_caller (w : MDWorld) (cp : List Char)
    (paths : List (List Char)) :
    ((composeBlocks w cp paths).map blockRel
        = (paths.filter fun p => !(w.isdir p)).map fun p => pyRelpath p cp) ∧
      (∀ a, a ∈ pyDedupFirst paths ↔ a ∈ paths) ∧
      (pyDedupFirst paths).Nodup ∧ (pyDedupFirst paths).Sublist paths ∧
      ((composeBlocks w cp (pyDedupFirst paths)).map blockRel
        = ((pyDedupFirst paths).filter fun p => !(w.isdir p)).map
            fun p => pyRelpath p cp) := by
  obtain ⟨hmem, hnd, hsub⟩ :=
    pyDedupFirst_spec (paths.length + 1) paths (Nat.lt_succ_self _)
  exact ⟨composeBlocks_map_blockRel w cp paths, hmem, hnd, hsub,
    composeBlocks_map_blockRel w cp _⟩

/-- Concrete world for the C8 counterexample: `a.py` is a readable file, nothing
is a directory, no `.git` anywhere. -/
def W8 : MDWorld where
  isdir := fun _ => false
  pathExists := fun _ => false
  readText := fun p => if p == "a.py".data then .ok "print(1)".data else .error "no".data
  scandirTree := fun _ => []

/-- The block `generate_markdown_to_string` emits for `a.py` in `W8`. -/
def c8Block : MDBlock := .contentB "a.py".data "python".data "print(1)".data

/-- C8 counterexample: passing the same file path twice produces the header and
fenced block TWICE — `generate_markdown_to_string` does not deduplicate. -/
theorem generate_duplicate_counterexample :
    (generate_markdown_to_string W8 [] ["a.py".data, "a.py".data]).2
        = renderBlock c8Block ++ renderBlock c8Block ∧
      (composeBlocks W8 [] ["a.py".data, "a.py".data]).map blockRel
        = ["a.py".data, "a.py".data] ∧
      renderBlock c8Block ≠ [] := by
  refine ⟨?_, by decide, by decide⟩
  have hcp : pyCommonpath (["a.py".data, "a.py".data].map pyDirname)
      = .ok [] := rfl
  have hrr : findRepoRoot W8.pathExists [] = [] := by
    unfold findRepoRoot
    simp
  simp only [generate_markdown_to_string, hcp]
  rw [hrr]
  decide
